import Mathlib

/-!
Verification of the distributed k-mer hash table of this repository.

The repository holds two variants of the table:

* `kmer_hash.cpp` — open addressing with linear probing.  Each rank allocates
  a `used` flag array and a `data` record array of the full table size and
  claims slots with an atomic compare-exchange (`expected = 0`, `desired = 1`)
  followed by an `rput` of the record; `find` walks the same probe sequence,
  loading the flag and, when it is set, the record.  We model one rank's
  arrays as functions from slot index to flag / record and sequentialise the
  PGAS operations (every `.wait()` makes each remote operation complete in
  program order).  The loops are embedded with an explicit iteration budget
  `gas`; the public entry points pass `gas = N` with `probe = 0`, which is
  exactly the number of iterations the C++ `while (!done && probe < size())`
  loop can perform, and the `probe < N` guard of the source is kept verbatim.
  Each loop also records the slots it visits and the memory operations it
  issues, so that probe order and write-freedom are provable facts rather
  than modelling artefacts.

* `hash_map.hpp` — separate chaining.  Buckets are per-rank vectors of
  linked lists; `local_insert` walks the chain and overwrites the first node
  carrying the same key, otherwise pushes a fresh node at the front;
  `local_find` walks the chain; `get_target_rank` is `hash % rank_n` and
  `get_local_slot` is `hash % my_size` where `my_size` is the calling rank's
  own segment length `N / R + (rank < N % R)`.

Keys and hash digests are modelled as natural numbers; the key hash function
is an explicit parameter `hf`, mirroring the opaque `pkmer_t::hash()`.
-/

/-- A k-mer record (`kmer_pair`): the key (`kmer`, a `pkmer_t`) together with
its payload bytes (`ext`, the forward/backward extension characters).
Byte-for-byte equality of records is equality of both fields. -/
structure KmerPair where
  kmer : Nat
  ext : Nat
deriving DecidableEq, Repr

namespace OpenAddr

/-- One rank's storage in `kmer_hash.cpp`: the `used` flag array (a flag is
`true` when the stored `int32_t` is nonzero) and the `data` record array. -/
structure Table where
  used : Nat → Bool
  data : Nat → KmerPair

/-- A memory operation issued against the table's globally addressable
arrays, as performed by the bodies of `insert` and `find`. -/
inductive MemOp where
  | loadUsed (slot : Nat)
  | rgetData (slot : Nat)
  | casUsed (slot : Nat) (expected desired : Bool)
  | rputData (slot : Nat) (v : KmerPair)
deriving DecidableEq, Repr

/-- The state change a single memory operation performs: loads leave the
table untouched, a compare-exchange claims the flag when it matches the
expected value, and `rput` stores a record. -/
def applyOp (st : Table) : MemOp → Table
  | MemOp.loadUsed _ => st
  | MemOp.rgetData _ => st
  | MemOp.casUsed s e d => if st.used s = e then { st with used := Function.update st.used s d } else st
  | MemOp.rputData s v => { st with data := Function.update st.data s v }

/-- The state after a sequence of memory operations. -/
def applyOps (st : Table) (ops : List MemOp) : Table :=
  ops.foldl applyOp st

/-- The outcome of `HashMap::insert`: the table state after the call, the
returned `success` flag, the slots probed in order, and the memory
operations issued. -/
structure InsertResult where
  st : Table
  ok : Bool
  visited : List Nat
  ops : List MemOp

/-- The outcome of `HashMap::find`: the returned `found` flag, the final
value of the output parameter `val_kmer`, the final value of the `probe`
counter, the slots probed in order, and the memory operations issued. -/
structure FindResult where
  found : Bool
  val : KmerPair
  probe : Nat
  visited : List Nat
  ops : List MemOp

/-- The insert loop of `kmer_hash.cpp`: while the slot index `probe` is
below the table size, compute `slot = (hash + probe) % size`, attempt the
compare-exchange `0 → 1` on `used[slot]`; on success `rput` the record into
`data[slot]` and stop with `success = true`, otherwise advance to the next
probe.  `gas` is the remaining iteration budget; the entry point passes
`gas = N`, which the `probe < N` guard never exhausts early. -/
def insertGo (N hashv : Nat) (r : KmerPair) (st : Table) : Nat → Nat → InsertResult
  | _probe, 0 => { st := st, ok := false, visited := [], ops := [] }
  | probe, gas + 1 =>
    if probe < N then
      let slot := (hashv + probe) % N
      if st.used slot = false then
        { st := { used := Function.update st.used slot true,
                  data := Function.update st.data slot r },
          ok := true,
          visited := [slot],
          ops := [MemOp.casUsed slot false true, MemOp.rputData slot r] }
      else
        let res := insertGo N hashv r st (probe + 1) gas
        { res with visited := slot :: res.visited,
                   ops := MemOp.casUsed slot false true :: res.ops }
    else
      { st := st, ok := false, visited := [], ops := [] }

/-- `HashMap::insert` of `kmer_hash.cpp`: probe from `p = 0` with the key's
hash, at most `size()` probes. -/
def insert (hf : Nat → Nat) (N : Nat) (st : Table) (r : KmerPair) : InsertResult :=
  insertGo N (hf r.kmer) r st 0 N

/-- The find loop of `kmer_hash.cpp`: while `probe` is below the table size,
load `used[slot]`; when it is set, `rget` the record into the output
parameter and compare its key with the searched key, stopping on a match;
in every other case (including an empty slot) advance to the next probe. -/
def findGo (N hashv key : Nat) (st : Table) : KmerPair → Nat → Nat → FindResult
  | val, probe, 0 => { found := false, val := val, probe := probe, visited := [], ops := [] }
  | val, probe, gas + 1 =>
    if probe < N then
      let slot := (hashv + probe) % N
      if st.used slot then
        let v := st.data slot
        if v.kmer = key then
          { found := true, val := v, probe := probe, visited := [slot],
            ops := [MemOp.loadUsed slot, MemOp.rgetData slot] }
        else
          let res := findGo N hashv key st v (probe + 1) gas
          { res with visited := slot :: res.visited,
                     ops := MemOp.loadUsed slot :: MemOp.rgetData slot :: res.ops }
      else
        let res := findGo N hashv key st val (probe + 1) gas
        { res with visited := slot :: res.visited,
                   ops := MemOp.loadUsed slot :: res.ops }
    else
      { found := false, val := val, probe := probe, visited := [], ops := [] }

/-- `HashMap::find` of `kmer_hash.cpp`: probe from `p = 0` with the key's
hash, at most `size()` probes; `v0` is the caller's (default-constructed)
output variable. -/
def find (hf : Nat → Nat) (N : Nat) (st : Table) (key : Nat) (v0 : KmerPair) : FindResult :=
  findGo N (hf key) key st v0 0 N

/-- The insert phase: a list of records inserted in order through
`HashMap::insert`. -/
def insertAll (hf : Nat → Nat) (N : Nat) (rs : List KmerPair) (st : Table) : Table :=
  rs.foldl (fun s r => (insert hf N s r).st) st

/-- The table whose `used` flags are all clear; `d0` stands for the
indeterminate contents of the freshly allocated record array. -/
def emptyTable (d0 : Nat → KmerPair) : Table :=
  { used := fun _ => false, data := d0 }

/-- The `used` flags right after the constructor body of `kmer_hash.cpp` on
rank `rank`: the zero-filling loop runs only under `rank_me() == 0`, so on
every other rank the flags keep the default-initialized contents of the
fresh allocation, modelled by `garbage`. -/
def ctorUsed (rank : Nat) (garbage : Nat → Bool) : Nat → Bool :=
  fun i => if rank = 0 then false else garbage i

end OpenAddr

namespace Chaining

/-- The segment length a rank computes in the constructor of
`hash_map.hpp`: `size / rank_n` plus one when `rank_me < size % rank_n`. -/
def my_size_calc (N R rank : Nat) : Nat :=
  N / R + (if rank < N % R then 1 else 0)

/-- `HashMap::get_target_rank` of `hash_map.hpp`: `hash % rank_n`. -/
def get_target_rank (R h : Nat) : Nat :=
  h % R

/-- `HashMap::get_local_slot` of `hash_map.hpp`: `hash % my_size`, where
`my_size` is the field of the `HashMap` object the call runs on. -/
def get_local_slot (mySize h : Nat) : Nat :=
  h % mySize

/-- `get_target_rank` as evaluated on rank `rank`: the body reads only the
hash and the rank count, so the evaluating rank is unused. -/
def owner_on_rank (R : Nat) (_rank : Nat) (h : Nat) : Nat :=
  get_target_rank R h

/-- `get_local_slot` as evaluated on rank `rank`: the body reads the
evaluating rank's own `my_size`. -/
def initial_index_on_rank (N R rank h : Nat) : Nat :=
  get_local_slot (my_size_calc N R rank) h

/-- The chain walk of `HashMap::local_insert`: find the first node whose key
equals the new record's key and overwrite its `data` field; `none` when no
node matches. -/
def updateFirst : List KmerPair → KmerPair → Option (List KmerPair)
  | [], _ => none
  | c :: rest, r =>
    if c.kmer = r.kmer then
      some (r :: rest)
    else
      match updateFirst rest r with
      | some rest2 => some (c :: rest2)
      | none => none

/-- `HashMap::local_insert` of `hash_map.hpp` on one bucket: overwrite the
first node with a matching key, otherwise push a fresh node at the front of
the chain. -/
def local_insert (b : List KmerPair) (r : KmerPair) : List KmerPair :=
  match updateFirst b r with
  | some b2 => b2
  | none => r :: b

/-- `HashMap::local_find` of `hash_map.hpp` on one bucket: walk the chain
and return the first record whose key matches. -/
def local_find (key : Nat) : List KmerPair → Option KmerPair
  | [] => none
  | c :: rest => if c.kmer = key then some c else local_find key rest

end Chaining

namespace OpenAddr

theorem insertAll_cons (hf : Nat → Nat) (N : Nat) (r : KmerPair) (rest : List KmerPair)
    (st : Table) : insertAll hf N (r :: rest) st = insertAll hf N rest (insert hf N st r).st :=
  rfl

/-- Each probed slot lies in the probe sequence: for every slot `s` of the
table there is a probe distance `p < N` with `(hashv + p) % N = s`. -/
theorem exists_probe_hit (N hashv s : Nat) (hs : s < N) :
    ∃ p, p < N ∧ (hashv + p) % N = s := by
  have hN : 0 < N := Nat.lt_of_le_of_lt (Nat.zero_le s) hs
  refine ⟨(N + s - hashv % N) % N, Nat.mod_lt _ hN, ?_⟩
  have ha : hashv % N < N := Nat.mod_lt _ hN
  have h1 : (hashv + (N + s - hashv % N) % N) % N = (hashv + (N + s - hashv % N)) % N :=
    (Nat.mod_modEq (N + s - hashv % N) N).add_left hashv
  have h2 : (hashv + (N + s - hashv % N)) % N = (hashv % N + (N + s - hashv % N)) % N :=
    (Nat.mod_modEq hashv N).symm.add_right (N + s - hashv % N)
  have h3 : hashv % N + (N + s - hashv % N) = N + s := by omega
  rw [h1, h2, h3, Nat.add_mod_left]
  exact Nat.mod_eq_of_lt hs

/-- An insert never clears a flag and never rewrites the record of an
already occupied slot. -/
theorem insertGo_preserve (N hashv : Nat) (r : KmerPair) (st : Table) (i : Nat)
    (hi : st.used i = true) :
    ∀ gas probe, (insertGo N hashv r st probe gas).st.used i = true ∧
      (insertGo N hashv r st probe gas).st.data i = st.data i := by
  intro gas
  induction gas with
  | zero => intro probe; exact ⟨hi, rfl⟩
  | succ g ih =>
    intro probe
    by_cases hp : probe < N
    · by_cases hu : st.used ((hashv + probe) % N) = false
      · have hne : i ≠ (hashv + probe) % N := by
          intro he
          rw [← he, hi] at hu
          simp at hu
        simp [insertGo, hp, hu, Function.update_apply, hne, hi]
      · simpa [insertGo, hp, hu] using ih (probe + 1)
    · simp [insertGo, hp, hi]

/-- Every slot is either untouched by an insert, or it is the one slot the
winning compare-exchange claimed: previously clear, now set, holding the
inserted record, with the insert reporting success. -/
theorem insertGo_writes (N hashv : Nat) (r : KmerPair) (st : Table) (i : Nat) :
    ∀ gas probe,
      ((insertGo N hashv r st probe gas).st.used i = st.used i ∧
        (insertGo N hashv r st probe gas).st.data i = st.data i) ∨
      (st.used i = false ∧ (insertGo N hashv r st probe gas).st.used i = true ∧
        (insertGo N hashv r st probe gas).st.data i = r ∧
        (insertGo N hashv r st probe gas).ok = true) := by
  intro gas
  induction gas with
  | zero => intro probe; left; exact ⟨rfl, rfl⟩
  | succ g ih =>
    intro probe
    by_cases hp : probe < N
    · by_cases hu : st.used ((hashv + probe) % N) = false
      · rcases eq_or_ne i ((hashv + probe) % N) with he | hne
        · right
          subst he
          refine ⟨hu, ?_, ?_, ?_⟩ <;> simp [insertGo, hp, hu, Function.update_apply]
        · left
          constructor <;> simp [insertGo, hp, hu, Function.update_apply, hne]
      · simpa [insertGo, hp, hu] using ih (probe + 1)
    · left; simp [insertGo, hp]

/-- An insert that reports failure leaves the table exactly as it was. -/
theorem insertGo_fail (N hashv : Nat) (r : KmerPair) (st : Table) :
    ∀ gas probe, (insertGo N hashv r st probe gas).ok = false →
      (insertGo N hashv r st probe gas).st = st := by
  intro gas
  induction gas with
  | zero => intro probe _; rfl
  | succ g ih =>
    intro probe hok
    by_cases hp : probe < N
    · by_cases hu : st.used ((hashv + probe) % N) = false
      · simp [insertGo, hp, hu] at hok
      · have hok2 : (insertGo N hashv r st (probe + 1) g).ok = false := by
          simpa [insertGo, hp, hu] using hok
        simpa [insertGo, hp, hu] using ih (probe + 1) hok2
    · simp [insertGo, hp]

/-- The insert loop succeeds exactly when some remaining probe distance
reaches a slot whose flag is still clear. -/
theorem insertGo_ok_iff (N hashv : Nat) (r : KmerPair) (st : Table) :
    ∀ gas probe, probe + gas = N →
      ((insertGo N hashv r st probe gas).ok = true ↔
        ∃ p, probe ≤ p ∧ p < N ∧ st.used ((hashv + p) % N) = false) := by
  intro gas
  induction gas with
  | zero =>
    intro probe hpg
    constructor
    · intro h; simp [insertGo] at h
    · rintro ⟨p, hp1, hp2, -⟩; omega
  | succ g ih =>
    intro probe hpg
    have hp : probe < N := by omega
    by_cases hu : st.used ((hashv + probe) % N) = false
    · constructor
      · intro _; exact ⟨probe, le_refl probe, hp, hu⟩
      · intro _; simp [insertGo, hp, hu]
    · constructor
      · intro h
        have h2 : (insertGo N hashv r st (probe + 1) g).ok = true := by
          simpa [insertGo, hp, hu] using h
        obtain ⟨p, h3, h4, h5⟩ := (ih (probe + 1) (by omega)).mp h2
        exact ⟨p, by omega, h4, h5⟩
      · rintro ⟨p, h3, h4, h5⟩
        have hne : probe ≠ p := by
          intro he; rw [← he] at h5; exact hu h5
        have h2 : (insertGo N hashv r st (probe + 1) g).ok = true :=
          (ih (probe + 1) (by omega)).mpr ⟨p, by omega, h4, h5⟩
        simpa [insertGo, hp, hu] using h2

/-- A successful insert has committed its record: some slot that was clear
before the call is set afterwards and holds the record. -/
theorem insertGo_ok_spec (N hashv : Nat) (r : KmerPair) (st : Table) :
    ∀ gas probe, (insertGo N hashv r st probe gas).ok = true →
      ∃ s, s < N ∧ st.used s = false ∧
        (insertGo N hashv r st probe gas).st.used s = true ∧
        (insertGo N hashv r st probe gas).st.data s = r := by
  intro gas
  induction gas with
  | zero => intro probe h; simp [insertGo] at h
  | succ g ih =>
    intro probe hok
    by_cases hp : probe < N
    · by_cases hu : st.used ((hashv + probe) % N) = false
      · refine ⟨(hashv + probe) % N, Nat.mod_lt _ (by omega), hu, ?_, ?_⟩ <;>
          simp [insertGo, hp, hu, Function.update_apply]
      · have hok2 : (insertGo N hashv r st (probe + 1) g).ok = true := by
          simpa [insertGo, hp, hu] using hok
        obtain ⟨s, h1, h2, h3, h4⟩ := ih (probe + 1) hok2
        refine ⟨s, h1, h2, ?_, ?_⟩
        · simpa [insertGo, hp, hu] using h3
        · simpa [insertGo, hp, hu] using h4
    · simp [insertGo, hp] at hok

/-- A find that reports success returns a record whose key matches the
searched key and which is stored in some occupied slot of the table. -/
theorem findGo_found_spec (N hashv key : Nat) (st : Table) :
    ∀ gas val probe, (findGo N hashv key st val probe gas).found = true →
      (findGo N hashv key st val probe gas).val.kmer = key ∧
      ∃ s, s < N ∧ st.used s = true ∧ st.data s = (findGo N hashv key st val probe gas).val := by
  intro gas
  induction gas with
  | zero => intro val probe h; simp [findGo] at h
  | succ g ih =>
    intro val probe hfound
    by_cases hp : probe < N
    · by_cases hu : st.used ((hashv + probe) % N) = true
      · by_cases hk : (st.data ((hashv + probe) % N)).kmer = key
        · constructor
          · simp [findGo, hp, hu, hk]
          · refine ⟨(hashv + probe) % N, Nat.mod_lt _ (by omega), hu, ?_⟩
            simp [findGo, hp, hu, hk]
        · have h2 : (findGo N hashv key st (st.data ((hashv + probe) % N)) (probe + 1) g).found = true := by
            simpa [findGo, hp, hu, hk] using hfound
          obtain ⟨ha, s, h1, h2u, h2d⟩ := ih _ (probe + 1) h2
          constructor
          · simpa [findGo, hp, hu, hk] using ha
          · refine ⟨s, h1, h2u, ?_⟩
            simpa [findGo, hp, hu, hk] using h2d
      · have h2 : (findGo N hashv key st val (probe + 1) g).found = true := by
          simpa [findGo, hp, hu] using hfound
        obtain ⟨ha, s, h1, h2u, h2d⟩ := ih _ (probe + 1) h2
        constructor
        · simpa [findGo, hp, hu] using ha
        · refine ⟨s, h1, h2u, ?_⟩
          simpa [findGo, hp, hu] using h2d
    · simp [findGo, hp] at hfound

/-- The find loop succeeds exactly when some remaining probe distance
reaches an occupied slot whose stored key matches the searched key. -/
theorem findGo_found_iff (N hashv key : Nat) (st : Table) :
    ∀ gas val probe, probe + gas = N →
      ((findGo N hashv key st val probe gas).found = true ↔
        ∃ p, probe ≤ p ∧ p < N ∧ st.used ((hashv + p) % N) = true ∧
          (st.data ((hashv + p) % N)).kmer = key) := by
  intro gas
  induction gas with
  | zero =>
    intro val probe hpg
    constructor
    · intro h; simp [findGo] at h
    · rintro ⟨p, hp1, hp2, -, -⟩; omega
  | succ g ih =>
    intro val probe hpg
    have hp : probe < N := by omega
    by_cases hu : st.used ((hashv + probe) % N) = true
    · by_cases hk : (st.data ((hashv + probe) % N)).kmer = key
      · constructor
        · intro _; exact ⟨probe, le_refl probe, hp, hu, hk⟩
        · intro _; simp [findGo, hp, hu, hk]
      · constructor
        · intro h
          have h2 : (findGo N hashv key st (st.data ((hashv + probe) % N)) (probe + 1) g).found = true := by
            simpa [findGo, hp, hu, hk] using h
          obtain ⟨p, h3, h4, h5, h6⟩ := (ih _ (probe + 1) (by omega)).mp h2
          exact ⟨p, by omega, h4, h5, h6⟩
        · rintro ⟨p, h3, h4, h5, h6⟩
          have hne : probe ≠ p := by
            intro he; rw [← he] at h6; exact hk h6
          have h2 : (findGo N hashv key st (st.data ((hashv + probe) % N)) (probe + 1) g).found = true :=
            (ih _ (probe + 1) (by omega)).mpr ⟨p, by omega, h4, h5, h6⟩
          simpa [findGo, hp, hu, hk] using h2
    · constructor
      · intro h
        have h2 : (findGo N hashv key st val (probe + 1) g).found = true := by
          simpa [findGo, hp, hu] using h
        obtain ⟨p, h3, h4, h5, h6⟩ := (ih _ (probe + 1) (by omega)).mp h2
        exact ⟨p, by omega, h4, h5, h6⟩
      · rintro ⟨p, h3, h4, h5, h6⟩
        have hne : probe ≠ p := by
          intro he; rw [← he] at h5; exact hu h5
        have h2 : (findGo N hashv key st val (probe + 1) g).found = true :=
          (ih _ (probe + 1) (by omega)).mpr ⟨p, by omega, h4, h5, h6⟩
        simpa [findGo, hp, hu] using h2

/-- A find that reports failure has run its probe counter all the way to
the bound: empty slots do not stop the loop. -/
theorem findGo_probe_bound (N hashv key : Nat) (st : Table) :
    ∀ gas val probe, probe + gas = N →
      (findGo N hashv key st val probe gas).found = false →
      (findGo N hashv key st val probe gas).probe = N := by
  intro gas
  induction gas with
  | zero => intro val probe hpg _; simpa [findGo] using hpg
  | succ g ih =>
    intro val probe hpg hfound
    have hp : probe < N := by omega
    by_cases hu : st.used ((hashv + probe) % N) = true
    · by_cases hk : (st.data ((hashv + probe) % N)).kmer = key
      · simp [findGo, hp, hu, hk] at hfound
      · have h2 : (findGo N hashv key st (st.data ((hashv + probe) % N)) (probe + 1) g).found = false := by
          simpa [findGo, hp, hu, hk] using hfound
        simpa [findGo, hp, hu, hk] using ih _ (probe + 1) (by omega) h2
    · have h2 : (findGo N hashv key st val (probe + 1) g).found = false := by
        simpa [findGo, hp, hu] using hfound
      simpa [findGo, hp, hu] using ih _ (probe + 1) (by omega) h2

/-- The slots the insert loop visits are consecutive probe distances mapped
through `(hashv + p) % N`, starting at the current probe index. -/
theorem insertGo_visited (N hashv : Nat) (r : KmerPair) (st : Table) :
    ∀ gas probe, probe + gas = N →
      ∃ k, probe + k ≤ N ∧
        (insertGo N hashv r st probe gas).visited =
          (List.range' probe k).map (fun p => (hashv + p) % N) := by
  intro gas
  induction gas with
  | zero =>
    intro probe hpg
    exact ⟨0, by omega, by simp [insertGo]⟩
  | succ g ih =>
    intro probe hpg
    have hp : probe < N := by omega
    by_cases hu : st.used ((hashv + probe) % N) = false
    · refine ⟨1, by omega, ?_⟩
      simp [insertGo, hp, hu, List.range']
    · obtain ⟨k, hk1, hk2⟩ := ih (probe + 1) (by omega)
      refine ⟨k + 1, by omega, ?_⟩
      have : (insertGo N hashv r st probe (g + 1)).visited =
          (hashv + probe) % N :: (insertGo N hashv r st (probe + 1) g).visited := by
        simp [insertGo, hp, hu]
      rw [this, hk2, List.range'_succ]
      simp

/-- The slots the find loop visits are consecutive probe distances mapped
through `(hashv + p) % N`, starting at the current probe index. -/
theorem findGo_visited (N hashv key : Nat) (st : Table) :
    ∀ gas val probe, probe + gas = N →
      ∃ k, probe + k ≤ N ∧
        (findGo N hashv key st val probe gas).visited =
          (List.range' probe k).map (fun p => (hashv + p) % N) := by
  intro gas
  induction gas with
  | zero =>
    intro val probe hpg
    exact ⟨0, by omega, by simp [findGo]⟩
  | succ g ih =>
    intro val probe hpg
    have hp : probe < N := by omega
    by_cases hu : st.used ((hashv + probe) % N) = true
    · by_cases hk : (st.data ((hashv + probe) % N)).kmer = key
      · refine ⟨1, by omega, ?_⟩
        simp [findGo, hp, hu, hk, List.range']
      · obtain ⟨k, hk1, hk2⟩ := ih (st.data ((hashv + probe) % N)) (probe + 1) (by omega)
        refine ⟨k + 1, by omega, ?_⟩
        have : (findGo N hashv key st val probe (g + 1)).visited =
            (hashv + probe) % N ::
              (findGo N hashv key st (st.data ((hashv + probe) % N)) (probe + 1) g).visited := by
          simp [findGo, hp, hu, hk]
        rw [this, hk2, List.range'_succ]
        simp
    · obtain ⟨k, hk1, hk2⟩ := ih val (probe + 1) (by omega)
      refine ⟨k + 1, by omega, ?_⟩
      have : (findGo N hashv key st val probe (g + 1)).visited =
          (hashv + probe) % N :: (findGo N hashv key st val (probe + 1) g).visited := by
        simp [findGo, hp, hu]
      rw [this, hk2, List.range'_succ]
      simp

/-- Every memory operation the find loop issues is a load: an occupancy
load or a record get, never a compare-exchange or a put. -/
theorem findGo_ops_reads (N hashv key : Nat) (st : Table) :
    ∀ gas val probe, ∀ op ∈ (findGo N hashv key st val probe gas).ops,
      ∀ t : Table, applyOp t op = t := by
  intro gas
  induction gas with
  | zero => intro val probe op hop; simp [findGo] at hop
  | succ g ih =>
    intro val probe op hop
    by_cases hp : probe < N
    · by_cases hu : st.used ((hashv + probe) % N) = true
      · by_cases hk : (st.data ((hashv + probe) % N)).kmer = key
        · simp [findGo, hp, hu, hk] at hop
          rcases hop with h | h <;> subst h <;> intro t <;> rfl
        · simp [findGo, hp, hu, hk] at hop
          rcases hop with h | h | h
          · subst h; intro t; rfl
          · subst h; intro t; rfl
          · exact ih _ (probe + 1) op h
      · simp [findGo, hp, hu] at hop
        rcases hop with h | h
        · subst h; intro t; rfl
        · exact ih _ (probe + 1) op h
    · simp [findGo, hp] at hop

/-- A sequence of operations that each leave any table unchanged leaves the
table unchanged. -/
theorem applyOps_of_reads (ops : List MemOp) :
    ∀ st : Table, (∀ op ∈ ops, ∀ t : Table, applyOp t op = t) →
      applyOps st ops = st := by
  induction ops with
  | nil => intro st _; rfl
  | cons op rest ih =>
    intro st h
    have h1 : applyOp st op = st := h op (List.mem_cons_self op rest) st
    have h2 := ih (applyOp st op) (fun o ho t => h o (List.mem_cons_of_mem op ho) t)
    rw [applyOps] at h2 ⊢
    simpa [h1] using h2

/-- The insert phase never clears a flag and never rewrites the record of a
slot that was already occupied when the phase reached it. -/
theorem insertAll_preserve (hf : Nat → Nat) (N : Nat) :
    ∀ (rs : List KmerPair) (st : Table) (i : Nat), st.used i = true →
      (insertAll hf N rs st).used i = true ∧
      (insertAll hf N rs st).data i = st.data i := by
  intro rs
  induction rs with
  | nil => intro st i hi; exact ⟨hi, rfl⟩
  | cons r rest ih =>
    intro st i hi
    have h1 := insertGo_preserve N (hf r.kmer) r st i hi N 0
    have h2 := ih (insert hf N st r).st i h1.1
    rw [insertAll_cons]
    exact ⟨h2.1, h2.2.trans h1.2⟩

/-- Every slot the insert phase occupies holds one of the inserted records:
a slot set after the phase was either set before it, or stores a record of
the phase's input list. -/
theorem insertAll_source (hf : Nat → Nat) (N : Nat) :
    ∀ (rs : List KmerPair) (st : Table) (i : Nat),
      (insertAll hf N rs st).used i = true →
      st.used i = true ∨ (insertAll hf N rs st).data i ∈ rs := by
  intro rs
  induction rs with
  | nil => intro st i hi; left; exact hi
  | cons r rest ih =>
    intro st i hi
    rw [insertAll_cons] at hi
    rcases ih (insert hf N st r).st i hi with h1 | h1
    · rcases insertGo_writes N (hf r.kmer) r st i N 0 with ⟨hu, -⟩ | ⟨-, -, hd, -⟩
      · left
        rw [← hu]
        exact h1
      · right
        have hp := insertAll_preserve hf N rest (insert hf N st r).st i h1
        have hd2 : (insert hf N st r).st.data i = r := hd
        rw [insertAll_cons, hp.2, hd2]
        exact List.mem_cons_self r rest
    · right
      rw [insertAll_cons]
      exact List.mem_cons_of_mem r h1

end OpenAddr

namespace Chaining

/-- The chain walk of `local_insert` reports no match exactly when no node
of the chain carries the inserted record's key. -/
theorem updateFirst_eq_none (r : KmerPair) :
    ∀ b : List KmerPair, updateFirst b r = none ↔ ∀ c ∈ b, c.kmer ≠ r.kmer := by
  intro b
  induction b with
  | nil => simp [updateFirst]
  | cons c rest ih =>
    by_cases hc : c.kmer = r.kmer
    · simp [updateFirst, hc]
    · constructor
      · intro h
        rw [updateFirst, if_neg hc] at h
        intro x hx
        rcases List.mem_cons.mp hx with he | hx2
        · subst he; exact hc
        · rcases hrest : updateFirst rest r with - | b2
          · exact (ih.mp hrest) x hx2
          · rw [hrest] at h; simp at h
      · intro h
        rw [updateFirst, if_neg hc]
        have hrest : updateFirst rest r = none :=
          ih.mpr (fun x hx => h x (List.mem_cons_of_mem c hx))
        rw [hrest]

/-- When the chain walk overwrites a node, every node carrying a different
key survives the overwrite. -/
theorem mem_updateFirst (r : KmerPair) :
    ∀ (b b2 : List KmerPair), updateFirst b r = some b2 →
      ∀ c ∈ b, c.kmer ≠ r.kmer → c ∈ b2 := by
  intro b
  induction b with
  | nil => intro b2 h; simp [updateFirst] at h
  | cons x rest ih =>
    intro b2 h c hc hne
    by_cases hx : x.kmer = r.kmer
    · rw [updateFirst, if_pos hx] at h
      rcases List.mem_cons.mp hc with he | hc2
      · subst he; exact absurd hx hne
      · rw [← Option.some_inj.mp h]
        exact List.mem_cons_of_mem r hc2
    · rw [updateFirst, if_neg hx] at h
      rcases hrest : updateFirst rest r with - | rest2
      · rw [hrest] at h; simp at h
      · rw [hrest] at h
        rcases List.mem_cons.mp hc with he | hc2
        · subst he
          rw [← Option.some_inj.mp h]
          exact List.mem_cons_self c rest2
        · rw [← Option.some_inj.mp h]
          exact List.mem_cons_of_mem x (ih rest2 hrest c hc2 hne)

end Chaining

namespace OpenAddr

/-- The table state an insert produces is exactly the result of applying
its recorded memory operations, confirming that the recorded traces are the
operational semantics of the loop. -/
theorem insertGo_st_applyOps (N hashv : Nat) (r : KmerPair) (st : Table) :
    ∀ gas probe, (insertGo N hashv r st probe gas).st =
      applyOps st (insertGo N hashv r st probe gas).ops := by
  intro gas
  induction gas with
  | zero => intro probe; rfl
  | succ g ih =>
    intro probe
    by_cases hp : probe < N
    · by_cases hu : st.used ((hashv + probe) % N) = false
      · simp [insertGo, hp, hu, applyOps, applyOp]
      · have hu2 : st.used ((hashv + probe) % N) ≠ false := hu
        simp only [insertGo, if_pos hp, if_neg hu]
        have : applyOp st (MemOp.casUsed ((hashv + probe) % N) false true) = st := by
          simp [applyOp, hu2]
        simpa [applyOps, this] using ih (probe + 1)
    · simp [insertGo, hp, applyOps]

end OpenAddr

/-- C1: `insert(record)` returns `true` exactly when the record was
committed to some slot — a slot of the table that was clear before the call
is set afterwards and holds the record — and returns `false` exactly when
every probe distance `p < size()` of the record's own probe sequence found
its slot already claimed, i.e. the probe counter reached the probe bound
without a successful compare-exchange. -/
theorem C1_insert_true_iff_committed (hf : Nat → Nat) (N : Nat) (st : OpenAddr.Table)
    (r : KmerPair) :
    ((OpenAddr.insert hf N st r).ok = true ↔
      ∃ s, s < N ∧ st.used s = false ∧
        (OpenAddr.insert hf N st r).st.used s = true ∧
        (OpenAddr.insert hf N st r).st.data s = r) ∧
    ((OpenAddr.insert hf N st r).ok = false ↔
      ∀ p, p < N → st.used ((hf r.kmer + p) % N) = true) := by
  have hiff := OpenAddr.insertGo_ok_iff N (hf r.kmer) r st N 0 (by omega)
  constructor
  · constructor
    · intro h
      exact OpenAddr.insertGo_ok_spec N (hf r.kmer) r st N 0 h
    · rintro ⟨s, -, h2, h3, -⟩
      by_contra hok
      have hfail : (OpenAddr.insert hf N st r).ok = false := Bool.eq_false_iff.mpr hok
      have hst : (OpenAddr.insert hf N st r).st = st :=
        OpenAddr.insertGo_fail N (hf r.kmer) r st N 0 hfail
      rw [hst, h2] at h3
      simp at h3
  · constructor
    · intro hfail p hp
      by_contra hused
      have h4 : (OpenAddr.insert hf N st r).ok = true :=
        hiff.mpr ⟨p, Nat.zero_le p, hp, Bool.eq_false_iff.mpr hused⟩
      rw [hfail] at h4
      simp at h4
    · intro hall
      refine Bool.eq_false_iff.mpr ?_
      intro hok
      obtain ⟨p, -, hp, hu⟩ := hiff.mp hok
      rw [hall p hp] at hu
      simp at hu

/-- C2 counterexample: with table size 4 and the identity as key hash,
insert a record with key 0 and payload 10, then a second record with the
same key 0 but payload 20.  Both inserts return `true` (the second is
committed to the next probe slot), the inter-phase barrier elapses, yet
`find` on key 0 returns the first record, so its output is not
byte-for-byte equal to the second record. -/
theorem C2_counterexample :
    (OpenAddr.insert (fun k => k) 4 (OpenAddr.emptyTable fun _ => ⟨0, 0⟩) ⟨0, 10⟩).ok = true ∧
    (OpenAddr.insert (fun k => k) 4
      (OpenAddr.insert (fun k => k) 4 (OpenAddr.emptyTable fun _ => ⟨0, 0⟩) ⟨0, 10⟩).st
      ⟨0, 20⟩).ok = true ∧
    (OpenAddr.find (fun k => k) 4
      (OpenAddr.insert (fun k => k) 4
        (OpenAddr.insert (fun k => k) 4 (OpenAddr.emptyTable fun _ => ⟨0, 0⟩) ⟨0, 10⟩).st
        ⟨0, 20⟩).st 0 ⟨0, 0⟩).found = true ∧
    (OpenAddr.find (fun k => k) 4
      (OpenAddr.insert (fun k => k) 4
        (OpenAddr.insert (fun k => k) 4 (OpenAddr.emptyTable fun _ => ⟨0, 0⟩) ⟨0, 10⟩).st
        ⟨0, 20⟩).st 0 ⟨0, 0⟩).val ≠ (⟨0, 20⟩ : KmerPair) := by
  decide

/-- C2 (amended): if `insert(r)` returned `true` and the inter-phase
barrier has elapsed (modelled by running `find` on the table state left by
the insert phase), then `find(r.key, &out)` returns `true` and `out` is a
record committed in the table whose key equals `r.key`; when no committed
record other than `r` carries `r`'s key, `out` equals `r` byte-for-byte.
The unamended byte-for-byte equality fails when a second record with the
same key was also committed. -/
theorem C2_round_trip (hf : Nat → Nat) (N : Nat) (st : OpenAddr.Table) (r : KmerPair)
    (rs : List KmerPair) (v0 : KmerPair)
    (hok : (OpenAddr.insert hf N st r).ok = true) :
    (OpenAddr.find hf N (OpenAddr.insertAll hf N rs (OpenAddr.insert hf N st r).st) r.kmer v0).found = true ∧
    (OpenAddr.find hf N (OpenAddr.insertAll hf N rs (OpenAddr.insert hf N st r).st) r.kmer v0).val.kmer = r.kmer ∧
    (∃ s, s < N ∧
      (OpenAddr.insertAll hf N rs (OpenAddr.insert hf N st r).st).used s = true ∧
      (OpenAddr.insertAll hf N rs (OpenAddr.insert hf N st r).st).data s =
        (OpenAddr.find hf N (OpenAddr.insertAll hf N rs (OpenAddr.insert hf N st r).st) r.kmer v0).val) ∧
    ((∀ s, s < N →
        (OpenAddr.insertAll hf N rs (OpenAddr.insert hf N st r).st).used s = true →
        ((OpenAddr.insertAll hf N rs (OpenAddr.insert hf N st r).st).data s).kmer = r.kmer →
        (OpenAddr.insertAll hf N rs (OpenAddr.insert hf N st r).st).data s = r) →
      (OpenAddr.find hf N (OpenAddr.insertAll hf N rs (OpenAddr.insert hf N st r).st) r.kmer v0).val = r) := by
  obtain ⟨s, hsN, hs0, hs1, hsd⟩ := OpenAddr.insertGo_ok_spec N (hf r.kmer) r st N 0 hok
  have hs1a : (OpenAddr.insert hf N st r).st.used s = true := hs1
  have hsda : (OpenAddr.insert hf N st r).st.data s = r := hsd
  have hpres := OpenAddr.insertAll_preserve hf N rs (OpenAddr.insert hf N st r).st s hs1a
  have hdata : (OpenAddr.insertAll hf N rs (OpenAddr.insert hf N st r).st).data s = r :=
    hpres.2.trans hsda
  obtain ⟨p, hpN, hps⟩ := OpenAddr.exists_probe_hit N (hf r.kmer) s hsN
  have hfound : (OpenAddr.find hf N (OpenAddr.insertAll hf N rs (OpenAddr.insert hf N st r).st) r.kmer v0).found = true := by
    have h2 := (OpenAddr.findGo_found_iff N (hf r.kmer) r.kmer
      (OpenAddr.insertAll hf N rs (OpenAddr.insert hf N st r).st) N v0 0 (by omega)).mpr
      ⟨p, Nat.zero_le p, hpN, by rw [hps]; exact hpres.1, by rw [hps, hdata]⟩
    exact h2
  have hspec := OpenAddr.findGo_found_spec N (hf r.kmer) r.kmer
    (OpenAddr.insertAll hf N rs (OpenAddr.insert hf N st r).st) N v0 0 hfound
  refine ⟨hfound, hspec.1, hspec.2, ?_⟩
  intro huniq
  obtain ⟨t, htN, htu, htd⟩ := hspec.2
  have hkey : ((OpenAddr.insertAll hf N rs (OpenAddr.insert hf N st r).st).data t).kmer = r.kmer := by
    rw [htd]
    exact hspec.1
  exact htd.symm.trans (huniq t htN htu hkey)

/-- C2 witness: a concrete successful insert of the record with key 1,
payload 7 into an empty two-slot table, followed by a find on key 1. -/
theorem C2_round_trip_witness :
    (OpenAddr.find (fun k => k) 2 (OpenAddr.insertAll (fun k => k) 2 []
      (OpenAddr.insert (fun k => k) 2 (OpenAddr.emptyTable fun _ => ⟨0, 0⟩) ⟨1, 7⟩).st) 1 ⟨0, 0⟩).found = true ∧
    (OpenAddr.find (fun k => k) 2 (OpenAddr.insertAll (fun k => k) 2 []
      (OpenAddr.insert (fun k => k) 2 (OpenAddr.emptyTable fun _ => ⟨0, 0⟩) ⟨1, 7⟩).st) 1 ⟨0, 0⟩).val.kmer = 1 ∧
    (∃ s, s < 2 ∧
      (OpenAddr.insertAll (fun k => k) 2 []
        (OpenAddr.insert (fun k => k) 2 (OpenAddr.emptyTable fun _ => ⟨0, 0⟩) ⟨1, 7⟩).st).used s = true ∧
      (OpenAddr.insertAll (fun k => k) 2 []
        (OpenAddr.insert (fun k => k) 2 (OpenAddr.emptyTable fun _ => ⟨0, 0⟩) ⟨1, 7⟩).st).data s =
        (OpenAddr.find (fun k => k) 2 (OpenAddr.insertAll (fun k => k) 2 []
          (OpenAddr.insert (fun k => k) 2 (OpenAddr.emptyTable fun _ => ⟨0, 0⟩) ⟨1, 7⟩).st) 1 ⟨0, 0⟩).val) ∧
    ((∀ s, s < 2 →
        (OpenAddr.insertAll (fun k => k) 2 []
          (OpenAddr.insert (fun k => k) 2 (OpenAddr.emptyTable fun _ => ⟨0, 0⟩) ⟨1, 7⟩).st).used s = true →
        ((OpenAddr.insertAll (fun k => k) 2 []
          (OpenAddr.insert (fun k => k) 2 (OpenAddr.emptyTable fun _ => ⟨0, 0⟩) ⟨1, 7⟩).st).data s).kmer = 1 →
        (OpenAddr.insertAll (fun k => k) 2 []
          (OpenAddr.insert (fun k => k) 2 (OpenAddr.emptyTable fun _ => ⟨0, 0⟩) ⟨1, 7⟩).st).data s = ⟨1, 7⟩) →
      (OpenAddr.find (fun k => k) 2 (OpenAddr.insertAll (fun k => k) 2 []
        (OpenAddr.insert (fun k => k) 2 (OpenAddr.emptyTable fun _ => ⟨0, 0⟩) ⟨1, 7⟩).st) 1 ⟨0, 0⟩).val = ⟨1, 7⟩) :=
  C2_round_trip (fun k => k) 2 (OpenAddr.emptyTable fun _ => ⟨0, 0⟩) ⟨1, 7⟩ [] ⟨0, 0⟩ (by decide)

/-- C3 counterexample: table of size 4 holding only a record with hash 2;
the find for a key with hash 0 observes `used = 0` already at its first
probe (slot 0), yet it does not terminate there: it runs its probe counter
to the bound 4 and visits slots 1, 2 and 3 past the first empty slot. -/
theorem C3_counterexample :
    (OpenAddr.insertAll (fun k => k) 4 [⟨2, 5⟩] (OpenAddr.emptyTable fun _ => ⟨0, 0⟩)).used 0 = false ∧
    (OpenAddr.find (fun k => k) 4
      (OpenAddr.insertAll (fun k => k) 4 [⟨2, 5⟩] (OpenAddr.emptyTable fun _ => ⟨0, 0⟩)) 0 ⟨0, 0⟩).found = false ∧
    (OpenAddr.find (fun k => k) 4
      (OpenAddr.insertAll (fun k => k) 4 [⟨2, 5⟩] (OpenAddr.emptyTable fun _ => ⟨0, 0⟩)) 0 ⟨0, 0⟩).probe = 4 ∧
    (OpenAddr.find (fun k => k) 4
      (OpenAddr.insertAll (fun k => k) 4 [⟨2, 5⟩] (OpenAddr.emptyTable fun _ => ⟨0, 0⟩)) 0 ⟨0, 0⟩).visited = [0, 1, 2, 3] := by
  decide

/-- C3 (amended): `find` returns "not found" exactly when no probe distance
below the bound reaches an occupied slot with a matching key, and whenever
it returns "not found" its probe counter has reached the bound `size()`:
an observation of `used = 0` merely advances the probe, it does not
terminate the search, so empty slots are probed past. -/
theorem C3_find_termination (hf : Nat → Nat) (N : Nat) (st : OpenAddr.Table)
    (k : Nat) (v0 : KmerPair) :
    ((OpenAddr.find hf N st k v0).found = false ↔
      ∀ p, p < N → ¬(st.used ((hf k + p) % N) = true ∧
        (st.data ((hf k + p) % N)).kmer = k)) ∧
    ((OpenAddr.find hf N st k v0).found = false →
      (OpenAddr.find hf N st k v0).probe = N) := by
  have hiff := OpenAddr.findGo_found_iff N (hf k) k st N v0 0 (by omega)
  constructor
  · constructor
    · intro hnf p hp hcon
      have h4 : (OpenAddr.find hf N st k v0).found = true :=
        hiff.mpr ⟨p, Nat.zero_le p, hp, hcon.1, hcon.2⟩
      rw [hnf] at h4
      simp at h4
    · intro hall
      refine Bool.eq_false_iff.mpr ?_
      intro hfound
      obtain ⟨p, -, hp, h1, h2⟩ := hiff.mp hfound
      exact hall p hp ⟨h1, h2⟩
  · intro hnf
    exact OpenAddr.findGo_probe_bound N (hf k) k st N v0 0 (by omega) hnf

/-- C4: on a table built by a sequence of inserts from the zero-filled
initial state, a find that returns `true` carries a record that was passed
to `insert` and whose key is the searched key; contrapositively, for a key
never passed to `insert` the find cannot return `true`, so it returns
`false`. -/
theorem C4_no_phantom (hf : Nat → Nat) (N : Nat) (rs : List KmerPair) (k : Nat)
    (v0 : KmerPair) (d0 : Nat → KmerPair)
    (hfound : (OpenAddr.find hf N (OpenAddr.insertAll hf N rs (OpenAddr.emptyTable d0)) k v0).found = true) :
    (OpenAddr.find hf N (OpenAddr.insertAll hf N rs (OpenAddr.emptyTable d0)) k v0).val ∈ rs ∧
    (OpenAddr.find hf N (OpenAddr.insertAll hf N rs (OpenAddr.emptyTable d0)) k v0).val.kmer = k := by
  have hspec := OpenAddr.findGo_found_spec N (hf k) k
    (OpenAddr.insertAll hf N rs (OpenAddr.emptyTable d0)) N v0 0 hfound
  obtain ⟨hk, s, hsN, hsu, hsd⟩ := hspec
  rcases OpenAddr.insertAll_source hf N rs (OpenAddr.emptyTable d0) s hsu with h1 | h1
  · simp [OpenAddr.emptyTable] at h1
  · exact ⟨hsd ▸ h1, hk⟩

/-- C4 witness: insert the record with key 0, payload 3 into an empty
two-slot table, then find key 0. -/
theorem C4_no_phantom_witness :
    (OpenAddr.find (fun k => k) 2
      (OpenAddr.insertAll (fun k => k) 2 [⟨0, 3⟩] (OpenAddr.emptyTable fun _ => ⟨9, 9⟩)) 0 ⟨9, 9⟩).val ∈
        [(⟨0, 3⟩ : KmerPair)] ∧
    (OpenAddr.find (fun k => k) 2
      (OpenAddr.insertAll (fun k => k) 2 [⟨0, 3⟩] (OpenAddr.emptyTable fun _ => ⟨9, 9⟩)) 0 ⟨9, 9⟩).val.kmer = 0 :=
  C4_no_phantom (fun k => k) 2 [⟨0, 3⟩] 0 ⟨9, 9⟩ (fun _ => ⟨9, 9⟩) (by decide)

/-- C5 counterexample: with total size 5 over 2 ranks the segment lengths
are 3 and 2; `get_target_rank` agrees on both ranks, but the initial index
for a key with hash 3 is `3 % 3 = 0` on rank 0 and `3 % 2 = 1` on rank 1:
`initial_index` does not yield identical results on every rank. -/
theorem C5_counterexample :
    Chaining.owner_on_rank 2 0 3 = Chaining.owner_on_rank 2 1 3 ∧
    Chaining.initial_index_on_rank 5 2 0 3 ≠ Chaining.initial_index_on_rank 5 2 1 3 := by
  decide

/-- C5 (amended): `owner(k.hash())` yields identical results on every rank;
`initial_index(k.hash())` yields identical results on every rank whenever
the rank count divides the total size (all segment lengths equal), and in
general each rank computes it against its own segment length. -/
theorem C5_partition_stability (N R h r1 r2 : Nat) (hdvd : N % R = 0) :
    Chaining.owner_on_rank R r1 h = Chaining.owner_on_rank R r2 h ∧
    Chaining.initial_index_on_rank N R r1 h = Chaining.initial_index_on_rank N R r2 h := by
  refine ⟨rfl, ?_⟩
  unfold Chaining.initial_index_on_rank Chaining.my_size_calc
  rw [hdvd]
  simp

/-- C5 witness: total size 4, 2 ranks, hash 3, evaluated on ranks 0 and 1. -/
theorem C5_partition_stability_witness :
    Chaining.owner_on_rank 2 0 3 = Chaining.owner_on_rank 2 1 3 ∧
    Chaining.initial_index_on_rank 4 2 0 3 = Chaining.initial_index_on_rank 4 2 1 3 :=
  C5_partition_stability 4 2 3 0 1 (by decide)

/-- C6: the constructor of `kmer_hash.cpp` zero-fills the `used` segment
only under `rank_me() == 0`.  On rank 1 an occupancy flag reads whatever
the fresh allocation held (here nonzero), while the same flag on rank 0
reads 0: ranks other than 0 do not zero-fill their segments. -/
theorem C6_zero_fill_only_rank0 :
    OpenAddr.ctorUsed 1 (fun _ => true) 0 = true ∧
    OpenAddr.ctorUsed 0 (fun _ => true) 0 = false := by
  decide

/-- C7 counterexample: in the chaining variant, the record with key 0 and
payload 10 is committed to its bucket; a later `local_insert` carrying the
same key 0 with payload 20 overwrites the stored value in place, so the
committed record's stored value is modified by a subsequent operation. -/
theorem C7_counterexample :
    Chaining.local_insert [] ⟨0, 10⟩ = [⟨0, 10⟩] ∧
    Chaining.local_insert (Chaining.local_insert [] ⟨0, 10⟩) ⟨0, 20⟩ = [⟨0, 20⟩] := by
  decide

/-- C7 (amended): `local_insert` never deletes a record and modifies a
stored record only when the inserted record carries the same key: an insert
whose key differs from every stored record pushes a fresh node and leaves
the chain intact, and every stored record with a different key survives any
insert. -/
theorem C7_no_update_other_keys (b : List KmerPair) (r : KmerPair) :
    ((∀ c ∈ b, c.kmer ≠ r.kmer) → Chaining.local_insert b r = r :: b) ∧
    (∀ c ∈ b, c.kmer ≠ r.kmer → c ∈ Chaining.local_insert b r) := by
  constructor
  · intro h
    unfold Chaining.local_insert
    rw [(Chaining.updateFirst_eq_none r b).mpr h]
  · intro c hc hne
    unfold Chaining.local_insert
    rcases hres : Chaining.updateFirst b r with - | b2
    · exact List.mem_cons_of_mem r hc
    · exact Chaining.mem_updateFirst r b b2 hres c hc hne

/-- C8: occupancy is monotone on the live table.  A set flag stays set
across a single insert and across a whole insert phase, and the only way a
flag can change is the claiming compare-exchange: a flag that differs after
an insert went from clear to set, the claimed slot holds the inserted
record, and the insert reported success.  A find issues no writes at all
(its reads leave every table unchanged). -/
theorem C8_monotone_occupancy (hf : Nat → Nat) (N : Nat) (st : OpenAddr.Table)
    (r : KmerPair) (rs : List KmerPair) (i : Nat) :
    (st.used i = true → (OpenAddr.insert hf N st r).st.used i = true) ∧
    (st.used i = true → (OpenAddr.insertAll hf N rs st).used i = true) ∧
    ((OpenAddr.insert hf N st r).st.used i ≠ st.used i →
      st.used i = false ∧ (OpenAddr.insert hf N st r).st.used i = true ∧
      (OpenAddr.insert hf N st r).st.data i = r ∧
      (OpenAddr.insert hf N st r).ok = true) := by
  refine ⟨?_, ?_, ?_⟩
  · intro h
    exact (OpenAddr.insertGo_preserve N (hf r.kmer) r st i h N 0).1
  · intro h
    exact (OpenAddr.insertAll_preserve hf N rs st i h).1
  · intro hne
    rcases OpenAddr.insertGo_writes N (hf r.kmer) r st i N 0 with ⟨h1, -⟩ | h1
    · exact absurd h1 hne
    · exact h1

/-- C9: both `insert` and `find` visit candidate slots in linear-probing
order: the visited slots are exactly `(h + p) % L` for the consecutive
probe distances `p = 0, 1, 2, …` up to where the loop stops (at most `L`),
and every visited slot lies inside the single owning segment `[0, L)`. -/
theorem C9_probe_sequence (hf : Nat → Nat) (N : Nat) (st : OpenAddr.Table)
    (r : KmerPair) (key : Nat) (v0 : KmerPair) :
    (∃ k, k ≤ N ∧ (OpenAddr.insert hf N st r).visited =
      (List.range k).map (fun p => (hf r.kmer + p) % N)) ∧
    (∃ k, k ≤ N ∧ (OpenAddr.find hf N st key v0).visited =
      (List.range k).map (fun p => (hf key + p) % N)) ∧
    (∀ s ∈ (OpenAddr.insert hf N st r).visited, s < N) ∧
    (∀ s ∈ (OpenAddr.find hf N st key v0).visited, s < N) := by
  obtain ⟨k1, hk1, hv1⟩ := OpenAddr.insertGo_visited N (hf r.kmer) r st N 0 (by omega)
  obtain ⟨k2, hk2, hv2⟩ := OpenAddr.findGo_visited N (hf key) key st N v0 0 (by omega)
  have hv1a : (OpenAddr.insert hf N st r).visited =
      (List.range' 0 k1).map (fun p => (hf r.kmer + p) % N) := hv1
  have hv2a : (OpenAddr.find hf N st key v0).visited =
      (List.range' 0 k2).map (fun p => (hf key + p) % N) := hv2
  refine ⟨⟨k1, by omega, ?_⟩, ⟨k2, by omega, ?_⟩, ?_, ?_⟩
  · rw [List.range_eq_range']
    exact hv1a
  · rw [List.range_eq_range']
    exact hv2a
  · intro s hs
    rw [hv1a] at hs
    obtain ⟨p, hp, rfl⟩ := List.mem_map.mp hs
    have hpk : p < k1 := by
      have := List.mem_range'_1.mp hp
      omega
    exact Nat.mod_lt _ (by omega)
  · intro s hs
    rw [hv2a] at hs
    obtain ⟨p, hp, rfl⟩ := List.mem_map.mp hs
    have hpk : p < k2 := by
      have := List.mem_range'_1.mp hp
      omega
    exact Nat.mod_lt _ (by omega)

/-- C10: `find` never modifies the table.  Every memory operation it issues
is a load (an occupancy load or a record get), and replaying its full
operation trace against the table — under the semantics in which a
compare-exchange or a put would change the state — returns the table
unchanged, whether the find succeeds or fails. -/
theorem C10_find_leaves_table_unchanged (hf : Nat → Nat) (N : Nat)
    (st : OpenAddr.Table) (key : Nat) (v0 : KmerPair) :
    OpenAddr.applyOps st (OpenAddr.find hf N st key v0).ops = st ∧
    ∀ op ∈ (OpenAddr.find hf N st key v0).ops, ∀ t : OpenAddr.Table,
      OpenAddr.applyOp t op = t := by
  have h := OpenAddr.findGo_ops_reads N (hf key) key st N v0 0
  exact ⟨OpenAddr.applyOps_of_reads ((OpenAddr.find hf N st key v0).ops) st h, h⟩
